import Mathlib

/- Exact-arithmetic shallow embedding of src/Optimization_way_algo.ipynb.

   Machine floats are modelled by an arbitrary linear ordered field K,
   instantiated at the rationals for executable checks and at the reals for
   the neural-network layers, which use the exponential function.  Division
   follows the Lean convention x / 0 = 0; every place where the NumPy source
   would instead produce NaN is noted at the corresponding theorem.  Random
   draws (the Dirichlet draw of reset, the multinomial channel draw, the
   uniform perturbation magnitude) are passed as explicit arguments, since a
   seeded generator makes them deterministic inputs of the computation. -/

namespace BudgetOpt

section Environment

variable {K : Type*} [LinearOrderedField K]

/-- Dot product of two vectors represented as lists, as in np.dot. -/
def dotProd (a b : List K) : K := (List.zipWith (fun x y => x * y) a b).sum

/-- State of MarketingEnv: revenue coefficients, total budget, channel count
and the current allocation vector. -/
structure MarketingEnv (K : Type*) where
  betas : List K
  budget : K
  num_channels : Nat
  state : List K
deriving DecidableEq

/-- Body of MarketingEnv.reset: the Dirichlet draw, a point of the probability
simplex passed explicitly because it is random, scaled entrywise by the
budget. -/
def resetState (budget : K) (draw : List K) : List K := draw.map (fun x => x * budget)

/-- MarketingEnv.__init__: records betas, budget and the channel count, then
calls reset.  The source performs no validation of its arguments. -/
def initEnv (betas : List K) (budget : K) (draw : List K) : MarketingEnv K :=
  { betas := betas, budget := budget, num_channels := betas.length,
    state := resetState budget draw }

/-- First half of MarketingEnv.step: state += action_changes, then
np.maximum(state, 0). -/
def clampNonneg (state delta : List K) : List K :=
  List.zipWith (fun s d => max (s + d) 0) state delta

/-- Second half of MarketingEnv.step: state = state / np.sum(state) * budget. -/
def renormalize (budget : K) (v : List K) : List K :=
  v.map (fun x => x / v.sum * budget)

/-- MarketingEnv.step: apply the additive action changes, clamp at zero,
renormalize so the entries again sum to the budget, and return the new
environment together with the reward np.dot(betas, state) and done = False. -/
def MarketingEnv.step (env : MarketingEnv K) (delta : List K) : MarketingEnv K × K × Bool :=
  let clamped := clampNonneg env.state delta
  let newState := renormalize env.budget clamped
  ({ env with state := newState }, dotProd env.betas newState, false)

end Environment

section Agent

variable {K : Type*} [LinearOrderedField K]

/-- Loop body of PPOAgent.compute_advantage: G = r + gamma * G, then prepend G
to returns and G - v to advantages.  The accumulator holds (G, advantages,
returns). -/
def advBody (gamma : K) (acc : K × List K × List K) (rv : K × K) : K × List K × List K :=
  (rv.1 + gamma * acc.1, (rv.1 + gamma * acc.1 - rv.2) :: acc.2.1,
   (rv.1 + gamma * acc.1) :: acc.2.2)

/-- PPOAgent.compute_advantage: iterate zip(reversed(rewards),
reversed(values)) starting from G = 0 and return (advantages, returns). -/
def compute_advantage (gamma : K) (rewards values : List K) : List K × List K :=
  let res := (List.zip rewards.reverse values.reverse).foldl (advBody gamma) (0, [], [])
  (res.2.1, res.2.2)

/-- torch.clamp on a scalar. -/
def clampVal (x lo hi : K) : K := min (max x lo) hi

/-- Actor loss of PPOAgent.update: ratio = new_probs / old_probs,
surrogate1 = ratio * advantages,
surrogate2 = clamp(ratio, 1 - epsilon, 1 + epsilon) * advantages, and
actor_loss = -mean(min(surrogate1, surrogate2)). -/
def ppoActorLoss (epsilon : K) (newProbs oldProbs advantages : List K) : K :=
  let ratio := List.zipWith (fun p q => p / q) newProbs oldProbs
  let surrogate1 := List.zipWith (fun r a => r * a) ratio advantages
  let surrogate2 :=
    List.zipWith (fun r a => clampVal r (1 - epsilon) (1 + epsilon) * a) ratio advantages
  let mins := List.zipWith min surrogate1 surrogate2
  Neg.neg (mins.sum / (mins.length : K))

/-- Critic loss of PPOAgent.update: mean of (returns - values) squared. -/
def ppoCriticLoss (returns values : List K) : K :=
  let sq := List.zipWith (fun r v => (r - v) ^ 2) returns values
  sq.sum / (sq.length : K)

end Agent

section Lemmas

variable {K : Type*} [LinearOrderedField K]

theorem clampNonneg_mem_nonneg (s : List K) :
    ∀ (d : List K), ∀ x ∈ clampNonneg s d, 0 ≤ x := by
  induction s with
  | nil => intro d x hx; simp [clampNonneg] at hx
  | cons a t ih =>
    intro d x hx
    cases d with
    | nil => simp [clampNonneg] at hx
    | cons b u =>
      simp only [clampNonneg, List.zipWith_cons_cons, List.mem_cons] at hx
      rcases hx with h | h
      · exact h ▸ le_max_right _ _
      · exact ih u x h

theorem sum_map_mul_const (B : K) (v : List K) :
    (v.map (fun x => x * B)).sum = v.sum * B := by
  induction v with
  | nil => simp
  | cons a t ih =>
    simp only [List.map_cons, List.sum_cons, ih]
    ring

theorem sum_map_div_mul (B c : K) (v : List K) :
    (v.map (fun x => x / c * B)).sum = v.sum / c * B := by
  induction v with
  | nil => simp
  | cons a t ih =>
    simp only [List.map_cons, List.sum_cons, ih]
    ring

theorem renormalize_sum (B : K) (v : List K) (h : v.sum ≠ 0) :
    (renormalize B v).sum = B := by
  unfold renormalize
  rw [sum_map_div_mul, div_self h, one_mul]

theorem renormalize_mem_nonneg (B : K) (v : List K) (hB : 0 ≤ B)
    (hv : ∀ x ∈ v, 0 ≤ x) (hs : 0 ≤ v.sum) :
    ∀ x ∈ renormalize B v, 0 ≤ x := by
  intro x hx
  simp only [renormalize, List.mem_map] at hx
  obtain ⟨y, hy, rfl⟩ := hx
  exact mul_nonneg (div_nonneg (hv y hy) hs) hB

theorem clampNonneg_replicate_zero (s : List K) (h : ∀ x ∈ s, 0 ≤ x) :
    clampNonneg s (List.replicate s.length 0) = s := by
  induction s with
  | nil => rfl
  | cons a t ih =>
    simp only [clampNonneg, List.length_cons, List.replicate_succ, List.zipWith_cons_cons,
      add_zero, List.cons.injEq]
    exact ⟨max_eq_left (h a (List.mem_cons_self a t)),
      ih fun x hx => h x (List.mem_cons_of_mem a hx)⟩

theorem renormalize_self (B : K) (v : List K) (hsum : v.sum = B) (hB : B ≠ 0) :
    renormalize B v = v := by
  unfold renormalize
  rw [hsum]
  have h2 : (fun x : K => x / B * B) = id := funext fun x => div_mul_cancel₀ x hB
  rw [h2, List.map_id]

end Lemmas

section ClaimEnvironment

/-- Claim C1 (amended): after reset with a simplex draw and a positive budget
the allocation entries are nonnegative and sum exactly to the budget, and
after any step whose clamped intermediate vector has positive sum the
allocation entries are nonnegative and sum exactly to the budget.  The
positivity premise on the clamped sum is forced by the degenerate
counterexample, where the source divides by zero. -/
theorem budget_simplex_invariant (betas : List ℚ) (B : ℚ) (n : Nat)
    (draw state delta : List ℚ)
    (hB : 0 < B)
    (hdraw : ∀ x ∈ draw, 0 ≤ x) (hdsum : draw.sum = 1)
    (hclamp : 0 < (clampNonneg state delta).sum) :
    ((∀ x ∈ (initEnv betas B draw).state, 0 ≤ x) ∧ (initEnv betas B draw).state.sum = B)
    ∧ ((∀ x ∈ (MarketingEnv.step ⟨betas, B, n, state⟩ delta).1.state, 0 ≤ x)
       ∧ ((MarketingEnv.step ⟨betas, B, n, state⟩ delta).1.state).sum = B) := by
  refine ⟨⟨?_, ?_⟩, ?_, ?_⟩
  · intro x hx
    simp only [initEnv, resetState, List.mem_map] at hx
    obtain ⟨y, hy, rfl⟩ := hx
    exact mul_nonneg (hdraw y hy) hB.le
  · show (resetState B draw).sum = B
    unfold resetState
    rw [sum_map_mul_const, hdsum, one_mul]
  · intro x hx
    exact renormalize_mem_nonneg B (clampNonneg state delta) hB.le
      (clampNonneg_mem_nonneg state delta) hclamp.le x hx
  · exact renormalize_sum B (clampNonneg state delta) (ne_of_gt hclamp)

theorem budget_simplex_invariant_witness :
    ((0 : ℚ) < 2 ∧ (∀ x ∈ ([1] : List ℚ), 0 ≤ x) ∧ ([1] : List ℚ).sum = 1
      ∧ 0 < (clampNonneg (K := ℚ) [4] [0]).sum)
    ∧ (((∀ x ∈ (initEnv [3] (2 : ℚ) [1]).state, 0 ≤ x)
        ∧ (initEnv [3] (2 : ℚ) [1]).state.sum = 2)
      ∧ ((∀ x ∈ (MarketingEnv.step (K := ℚ) ⟨[3], 2, 1, [4]⟩ [0]).1.state, 0 ≤ x)
        ∧ ((MarketingEnv.step (K := ℚ) ⟨[3], 2, 1, [4]⟩ [0]).1.state).sum = 2)) :=
  ⟨⟨by norm_num, by norm_num, by norm_num, by norm_num [clampNonneg, max_def]⟩,
    budget_simplex_invariant [3] 2 1 [1] [4] [0] (by norm_num) (by norm_num) (by norm_num)
      (by norm_num [clampNonneg, max_def])⟩

/-- Claim C1 counterexample: with budget 50 and state [10, 20], the delta
[-100, -100] clamps every entry to zero; the source then divides by the zero
sum (NaN in NumPy, 0 in this exact model) and the post-step state sums to 0,
not to the budget, refuting the invariant for arbitrary deltas. -/
theorem budget_simplex_counterexample :
    ¬ ((MarketingEnv.step (K := ℚ) ⟨[3], 50, 2, [10, 20]⟩ [-100, -100]).1.state.sum = 50) := by
  norm_num [MarketingEnv.step, clampNonneg, renormalize, dotProd, max_def]

/-- Claim C2: the reward returned by step equals the dot product of the fixed
coefficients with the post-renormalization state, and the reward is a
deterministic function of the pre-step state, the configuration and the
delta. -/
theorem step_reward_dot (betas : List ℚ) (B : ℚ) (n m : Nat) (s1 s2 d1 d2 : List ℚ)
    (hs : s1 = s2) (hd : d1 = d2) :
    (MarketingEnv.step ⟨betas, B, n, s1⟩ d1).2.1
      = dotProd betas (renormalize B (clampNonneg s1 d1))
    ∧ (MarketingEnv.step ⟨betas, B, n, s1⟩ d1).2.1
      = (MarketingEnv.step ⟨betas, B, m, s2⟩ d2).2.1 := by
  subst hs
  subst hd
  exact ⟨rfl, rfl⟩

theorem step_reward_dot_witness :
    ([10] : List ℚ) = [10] ∧ ([2] : List ℚ) = [2]
    ∧ ((MarketingEnv.step (K := ℚ) ⟨[3], 50, 1, [10]⟩ [2]).2.1
        = dotProd [3] (renormalize 50 (clampNonneg [10] [2]))
      ∧ (MarketingEnv.step (K := ℚ) ⟨[3], 50, 1, [10]⟩ [2]).2.1
        = (MarketingEnv.step (K := ℚ) ⟨[3], 50, 2, [10]⟩ [2]).2.1) :=
  ⟨rfl, rfl, step_reward_dot [3] 50 1 2 [10] [10] [2] [2] rfl rfl⟩

/-- Claim C5 evaluation: at an input whose delta clamps every entry to zero the
source reaches an unguarded division by the zero sum.  It signals no error:
in the exact model step returns normally, with an all-zero state, reward 0 and
done = false; in the NumPy source the same input silently yields NaN entries
and a NaN reward. -/
theorem step_degenerate_no_guard :
    (clampNonneg (K := ℚ) [100] [-200]).sum = 0
    ∧ (MarketingEnv.step (K := ℚ) ⟨[2], 100, 1, [100]⟩ [-200]).1.state = [0]
    ∧ (MarketingEnv.step (K := ℚ) ⟨[2], 100, 1, [100]⟩ [-200]).2.1 = 0
    ∧ (MarketingEnv.step (K := ℚ) ⟨[2], 100, 1, [100]⟩ [-200]).2.2 = false := by
  norm_num [MarketingEnv.step, clampNonneg, renormalize, dotProd, max_def]

/-- Claim C8 evaluation: construction performs no validation.  A negative
budget and an empty coefficient vector are both accepted, and an environment
state is created in each case (here with a negative allocation entry for the
negative budget). -/
theorem initEnv_no_validation :
    initEnv (K := ℚ) [2] (-1) [1]
      = { betas := [2], budget := -1, num_channels := 1, state := [-1] }
    ∧ initEnv (K := ℚ) [] 5 []
      = { betas := [], budget := 5, num_channels := 0, state := [] } := by
  norm_num [initEnv, resetState]

/-- Claim C10: starting from an allocation with nonnegative entries summing
exactly to a positive budget, step with the all-zero delta returns the same
state unchanged together with reward equal to the dot product of the
coefficients and that state. -/
theorem step_zero_delta_identity (betas : List ℚ) (B : ℚ) (n : Nat) (state : List ℚ)
    (hpos : ∀ x ∈ state, 0 ≤ x) (hsum : state.sum = B) (hB : 0 < B) :
    (MarketingEnv.step ⟨betas, B, n, state⟩ (List.replicate state.length 0)).1.state = state
    ∧ (MarketingEnv.step ⟨betas, B, n, state⟩ (List.replicate state.length 0)).2.1
      = dotProd betas state := by
  have hclamp : clampNonneg state (List.replicate state.length 0) = state :=
    clampNonneg_replicate_zero state hpos
  have hren : renormalize B (clampNonneg state (List.replicate state.length 0)) = state := by
    rw [hclamp]
    exact renormalize_self B state hsum (ne_of_gt hB)
  constructor
  · show renormalize B (clampNonneg state (List.replicate state.length 0)) = state
    exact hren
  · show dotProd betas (renormalize B (clampNonneg state (List.replicate state.length 0)))
      = dotProd betas state
    rw [hren]

theorem step_zero_delta_identity_witness :
    (∀ x ∈ ([1, 2] : List ℚ), 0 ≤ x) ∧ ([1, 2] : List ℚ).sum = 3 ∧ (0 : ℚ) < 3
    ∧ ((MarketingEnv.step (K := ℚ) ⟨[5, 7], 3, 2, [1, 2]⟩ (List.replicate 2 0)).1.state = [1, 2]
      ∧ (MarketingEnv.step (K := ℚ) ⟨[5, 7], 3, 2, [1, 2]⟩ (List.replicate 2 0)).2.1
        = dotProd [5, 7] [1, 2]) :=
  ⟨by norm_num, by norm_num, by norm_num,
    step_zero_delta_identity [5, 7] 3 2 [1, 2] (by norm_num) (by norm_num) (by norm_num)⟩

end ClaimEnvironment

section ClaimAgent

theorem advBody_foldl_head {K : Type*} [LinearOrderedField K] (gamma : K)
    (l : List (K × K)) (acc : K × List K × List K) (h : acc.1 = acc.2.2.headD 0) :
    (l.foldl (advBody gamma) acc).1 = (l.foldl (advBody gamma) acc).2.2.headD 0 := by
  induction l generalizing acc with
  | nil => simpa using h
  | cons p t ih =>
    simp only [List.foldl_cons]
    exact ih _ (by simp [advBody])

theorem compute_advantage_cons {K : Type*} [LinearOrderedField K] (gamma r v : K)
    (rs vs : List K) (h : rs.length = vs.length) :
    compute_advantage gamma (r :: rs) (v :: vs)
      = ((r + gamma * (compute_advantage gamma rs vs).2.headD 0 - v)
            :: (compute_advantage gamma rs vs).1,
         (r + gamma * (compute_advantage gamma rs vs).2.headD 0)
            :: (compute_advantage gamma rs vs).2) := by
  unfold compute_advantage
  have hzip : (r :: rs).reverse.zip (v :: vs).reverse
      = rs.reverse.zip vs.reverse ++ [(r, v)] := by
    rw [List.reverse_cons, List.reverse_cons, List.zip_append (by simp [h])]
    rfl
  rw [hzip, List.foldl_append]
  have hhead := advBody_foldl_head gamma (rs.reverse.zip vs.reverse) (0, [], []) (by simp)
  simp only [List.foldl_cons, List.foldl_nil, advBody]
  rw [hhead]

/-- Claim C3: compute_advantage realizes the backward Monte Carlo recursion:
on a step prepended to an equal-length trajectory it returns
G = r + gamma * G_rest as the new head of returns and G - v as the new head of
advantages; on a length-one trajectory it returns ([r - v], [r]); and on
rewards [1, 1] with gamma 1/2 and values [0, 0] it returns
returns [3/2, 1] and advantages [3/2, 1]. -/
theorem compute_advantage_spec (gamma r v : ℚ) (rs vs : List ℚ)
    (h : rs.length = vs.length) :
    compute_advantage gamma (r :: rs) (v :: vs)
      = ((r + gamma * (compute_advantage gamma rs vs).2.headD 0 - v)
            :: (compute_advantage gamma rs vs).1,
         (r + gamma * (compute_advantage gamma rs vs).2.headD 0)
            :: (compute_advantage gamma rs vs).2)
    ∧ compute_advantage gamma [r] [v] = ([r - v], [r])
    ∧ compute_advantage ((1 : ℚ) / 2) [1, 1] [0, 0] = ([3/2, 1], [3/2, 1]) := by
  refine ⟨compute_advantage_cons gamma r v rs vs h, ?_, ?_⟩
  · simp [compute_advantage, advBody]
  · norm_num [compute_advantage, advBody, List.zip_cons_cons]

theorem compute_advantage_spec_witness :
    ([] : List ℚ).length = ([] : List ℚ).length
    ∧ compute_advantage (0 : ℚ) [2] [1] = ([1], [2]) :=
  ⟨rfl, by
    have h2 := (compute_advantage_spec 0 2 1 [] [] rfl).2.1
    norm_num at h2
    exact h2⟩


end ClaimAgent

section Network

/-- ReLU applied entrywise, torch.relu. -/
noncomputable def reluVec (x : List ℝ) : List ℝ := x.map (fun v => max v 0)

/-- Fully connected layer, nn.Linear: each weight row dotted with the input,
plus the bias entry. -/
noncomputable def linearLayer (weight : List (List ℝ)) (bias : List ℝ) (x : List ℝ) : List ℝ :=
  List.zipWith (fun row b => dotProd row x + b) weight bias

/-- torch.softmax along the last dimension. -/
noncomputable def softmax (z : List ℝ) : List ℝ :=
  z.map (fun zi => Real.exp zi / (z.map Real.exp).sum)

/-- Parameters of ActorNetwork: the three linear layers fc1, fc2, fc3. -/
structure ActorParams where
  w1 : List (List ℝ)
  b1 : List ℝ
  w2 : List (List ℝ)
  b2 : List ℝ
  w3 : List (List ℝ)
  b3 : List ℝ

/-- ActorNetwork.forward: relu(fc1(state)), relu(fc2), then softmax(fc3). -/
noncomputable def ActorNetwork.forward (p : ActorParams) (state : List ℝ) : List ℝ :=
  softmax (linearLayer p.w3 p.b3
    (reluVec (linearLayer p.w2 p.b2 (reluVec (linearLayer p.w1 p.b1 state)))))

theorem exp_list_sum_pos (z : List ℝ) (hz : z ≠ []) : 0 < (z.map Real.exp).sum := by
  cases z with
  | nil => exact absurd rfl hz
  | cons a t =>
    simp only [List.map_cons, List.sum_cons]
    have h1 : (0 : ℝ) < Real.exp a := Real.exp_pos a
    have h2 : 0 ≤ (t.map Real.exp).sum :=
      List.sum_nonneg fun x hx => by
        obtain ⟨y, _, rfl⟩ := List.mem_map.mp hx
        exact (Real.exp_pos y).le
    linarith

theorem sum_map_div_const {K : Type*} [LinearOrderedField K] (c : K) (v : List K) :
    (v.map (fun x => x / c)).sum = v.sum / c := by
  induction v with
  | nil => simp
  | cons a t ih => simp [ih, add_div]

theorem softmax_sum (z : List ℝ) (hz : z ≠ []) : (softmax z).sum = 1 := by
  unfold softmax
  have hpos := exp_list_sum_pos z hz
  have hmap : (z.map fun zi => Real.exp zi / (z.map Real.exp).sum)
      = (z.map Real.exp).map (fun x => x / (z.map Real.exp).sum) := by
    rw [List.map_map]
    rfl
  rw [hmap, sum_map_div_const, div_self (ne_of_gt hpos)]

/-- Claim C7: for every parameter setting and every input state, the
probability vector returned by the actor forward pass sums to exactly 1; the
only premise is that the output layer is nonempty, so that the network has at
least one channel. -/
theorem actor_forward_sum_one (p : ActorParams) (state : List ℝ)
    (hw : p.w3 ≠ []) (hb : p.b3 ≠ []) :
    (ActorNetwork.forward p state).sum = 1 := by
  unfold ActorNetwork.forward
  apply softmax_sum
  unfold linearLayer
  intro hnil
  rcases List.zipWith_eq_nil_iff.mp hnil with h | h
  · exact hw h
  · exact hb h

theorem actor_forward_sum_one_witness :
    (([[1]] : List (List ℝ)) ≠ [] ∧ ([0] : List ℝ) ≠ [])
    ∧ (ActorNetwork.forward ⟨[], [], [], [], [[1]], [0]⟩ []).sum = 1 :=
  ⟨⟨by simp, by simp⟩,
    actor_forward_sum_one ⟨[], [], [], [], [[1]], [0]⟩ [] (by simp) (by simp)⟩

end Network

section Autograd

/- Deep embedding of the scalar expression graphs that torch autograd
differentiates inside PPOAgent.update.  Network parameters are symbolic
leaves tagged with the network owning them; everything computed outside the
graph (states, rewards, old_probs, and the advantages and returns, which the
Python rebuilds through torch.tensor and thereby detaches) enters as a
constant leaf.  Derivatives are taken pointwise by the standard forward-mode
rules; at the measure-zero tie points of max and min the source picks the
torch subgradient conventions for relu (derivative 0 at 0), which is the only
place the choice is observable for the claims below. -/

/-- Which network a parameter belongs to. -/
inductive NetTag where
  | actor : NetTag
  | critic : NetTag
deriving DecidableEq

/-- A reference to one scalar network parameter: owning network, layer slot
(1, 3, 5 the weight matrices fc1, fc2, fc3 and 2, 4, 6 their biases), row and
column. -/
structure PRef where
  net : NetTag
  layer : Nat
  row : Nat
  col : Nat
deriving DecidableEq

/-- Scalar expression graph: constants, parameter leaves, and the operations
used by the update losses. -/
inductive Exp where
  | konst : ℝ → Exp
  | par : PRef → Exp
  | add : Exp → Exp → Exp
  | sub : Exp → Exp → Exp
  | mul : Exp → Exp → Exp
  | ediv : Exp → Exp → Exp
  | neg : Exp → Exp
  | emax : Exp → Exp → Exp
  | emin : Exp → Exp → Exp
  | eexp : Exp → Exp

/-- Value of an expression at a parameter assignment. -/
noncomputable def Exp.eval (θ : PRef → ℝ) : Exp → ℝ
  | konst c => c
  | par p => θ p
  | add a b => a.eval θ + b.eval θ
  | sub a b => a.eval θ - b.eval θ
  | mul a b => a.eval θ * b.eval θ
  | ediv a b => a.eval θ / b.eval θ
  | neg a => -(a.eval θ)
  | emax a b => max (a.eval θ) (b.eval θ)
  | emin a b => min (a.eval θ) (b.eval θ)
  | eexp a => Real.exp (a.eval θ)

/-- Partial derivative of an expression with respect to the parameter q,
evaluated at θ: the quantity loss.backward() adds to the grad buffer of q.
For emax and emin the gradient follows the selected branch, ties resolved to
the second argument, which reproduces the torch relu convention of derivative
0 at input 0 for emax x (konst 0). -/
noncomputable def Exp.dEval (θ : PRef → ℝ) (q : PRef) : Exp → ℝ
  | konst _ => 0
  | par p => if p = q then 1 else 0
  | add a b => a.dEval θ q + b.dEval θ q
  | sub a b => a.dEval θ q - b.dEval θ q
  | mul a b => a.dEval θ q * b.eval θ + a.eval θ * b.dEval θ q
  | ediv a b => (a.dEval θ q * b.eval θ - a.eval θ * b.dEval θ q) / (b.eval θ) ^ 2
  | neg a => -(a.dEval θ q)
  | emax a b => if b.eval θ < a.eval θ then a.dEval θ q else b.dEval θ q
  | emin a b => if a.eval θ < b.eval θ then a.dEval θ q else b.dEval θ q
  | eexp a => Real.exp (a.eval θ) * a.dEval θ q

/-- True when every parameter leaf of the expression belongs to network t. -/
def Exp.onlyNet (t : NetTag) : Exp → Bool
  | konst _ => true
  | par p => decide (p.net = t)
  | add a b => a.onlyNet t && b.onlyNet t
  | sub a b => a.onlyNet t && b.onlyNet t
  | mul a b => a.onlyNet t && b.onlyNet t
  | ediv a b => a.onlyNet t && b.onlyNet t
  | neg a => a.onlyNet t
  | emax a b => a.onlyNet t && b.onlyNet t
  | emin a b => a.onlyNet t && b.onlyNet t
  | eexp a => a.onlyNet t

theorem dEval_eq_zero_of_onlyNet (t : NetTag) (q : PRef) (θ : PRef → ℝ)
    (hq : q.net ≠ t) :
    ∀ e : Exp, e.onlyNet t = true → e.dEval θ q = 0 := by
  intro e
  induction e with
  | konst c => intro _; rfl
  | par p =>
    intro h
    have hp : p.net = t := of_decide_eq_true h
    have hpq : p ≠ q := fun hh => hq (hh ▸ hp)
    simp [Exp.dEval, hpq]
  | add a b iha ihb =>
    intro h
    rcases Bool.and_eq_true_iff.mp h with ⟨h1, h2⟩
    simp [Exp.dEval, iha h1, ihb h2]
  | sub a b iha ihb =>
    intro h
    rcases Bool.and_eq_true_iff.mp h with ⟨h1, h2⟩
    simp [Exp.dEval, iha h1, ihb h2]
  | mul a b iha ihb =>
    intro h
    rcases Bool.and_eq_true_iff.mp h with ⟨h1, h2⟩
    simp [Exp.dEval, iha h1, ihb h2]
  | ediv a b iha ihb =>
    intro h
    rcases Bool.and_eq_true_iff.mp h with ⟨h1, h2⟩
    simp [Exp.dEval, iha h1, ihb h2]
  | neg a iha =>
    intro h
    simp [Exp.dEval, iha h]
  | emax a b iha ihb =>
    intro h
    rcases Bool.and_eq_true_iff.mp h with ⟨h1, h2⟩
    simp [Exp.dEval, iha h1, ihb h2]
  | emin a b iha ihb =>
    intro h
    rcases Bool.and_eq_true_iff.mp h with ⟨h1, h2⟩
    simp [Exp.dEval, iha h1, ihb h2]
  | eexp a iha =>
    intro h
    simp [Exp.dEval, iha h]

end Autograd

section SymbolicNetworks

/-- Symbolic weight matrix of network t at layer slot `layer`. -/
def wMat (t : NetTag) (layer rows cols : Nat) : List (List Exp) :=
  (List.range rows).map fun i => (List.range cols).map fun j => Exp.par ⟨t, layer, i, j⟩

/-- Symbolic bias vector of network t at layer slot `layer`. -/
def bVec (t : NetTag) (layer rows : Nat) : List Exp :=
  (List.range rows).map fun i => Exp.par ⟨t, layer, i, 0⟩

/-- Symbolic sum of a list of expressions. -/
def sumE (l : List Exp) : Exp := l.foldr Exp.add (Exp.konst 0)

/-- Symbolic dot product. -/
def dotE (a b : List Exp) : Exp := sumE (List.zipWith Exp.mul a b)

/-- Symbolic nn.Linear layer. -/
def linE (w : List (List Exp)) (b x : List Exp) : List Exp :=
  List.zipWith (fun row bi => Exp.add (dotE row x) bi) w b

/-- Symbolic entrywise torch.relu. -/
def reluE (x : List Exp) : List Exp := x.map fun e => Exp.emax e (Exp.konst 0)

/-- Symbolic torch.softmax along the last dimension. -/
def softmaxE (z : List Exp) : List Exp :=
  z.map fun zi => Exp.ediv (Exp.eexp zi) (sumE (z.map Exp.eexp))

/-- Symbolic mean of a list of expressions. -/
def meanE (l : List Exp) : Exp := Exp.ediv (sumE l) (Exp.konst (l.length : ℝ))

/-- Symbolic torch.clamp with scalar bounds. -/
def clampE (e : Exp) (lo hi : ℝ) : Exp :=
  Exp.emin (Exp.emax e (Exp.konst lo)) (Exp.konst hi)

/-- Symbolic ActorNetwork.forward on a constant input state with n channels
and hidden width h (64 in the source): relu(fc1), relu(fc2), softmax(fc3). -/
def actorForwardE (n h : Nat) (state : List ℝ) : List Exp :=
  softmaxE (linE (wMat NetTag.actor 5 n h) (bVec NetTag.actor 6 n)
    (reluE (linE (wMat NetTag.actor 3 h h) (bVec NetTag.actor 4 h)
      (reluE (linE (wMat NetTag.actor 1 h n) (bVec NetTag.actor 2 h)
        (state.map Exp.konst))))))

/-- Symbolic CriticNetwork forward on a constant input state, squeezed from
output width 1 to its single scalar entry. -/
def criticValueE (n h : Nat) (state : List ℝ) : Exp :=
  (linE (wMat NetTag.critic 5 1 h) (bVec NetTag.critic 6 1)
    (reluE (linE (wMat NetTag.critic 3 h h) (bVec NetTag.critic 4 h)
      (reluE (linE (wMat NetTag.critic 1 h n) (bVec NetTag.critic 2 h)
        (state.map Exp.konst)))))).headD (Exp.konst 0)

/-- Value of the actor forward pass at the current parameters. -/
noncomputable def actorProbs (n hdim : Nat) (θ : PRef → ℝ) (state : List ℝ) : List ℝ :=
  (actorForwardE n hdim state).map fun e => e.eval θ

theorem zipWith_pred {α β : Type*} (P : Exp → Prop) (f : α → β → Exp) :
    ∀ (la : List α) (lb : List β), (∀ a ∈ la, ∀ b ∈ lb, P (f a b)) →
      ∀ e ∈ List.zipWith f la lb, P e := by
  intro la
  induction la with
  | nil => intro lb _ e he; simp at he
  | cons a ta ih =>
    intro lb hab e he
    cases lb with
    | nil => simp at he
    | cons b tb =>
      simp only [List.zipWith_cons_cons, List.mem_cons] at he
      rcases he with rfl | he
      · exact hab a (List.mem_cons_self a ta) b (List.mem_cons_self b tb)
      · exact ih tb
          (fun x hx y hy =>
            hab x (List.mem_cons_of_mem a hx) y (List.mem_cons_of_mem b hy)) e he

theorem map_pred {α : Type*} (P : Exp → Prop) (f : α → Exp) (l : List α)
    (h : ∀ x ∈ l, P (f x)) : ∀ e ∈ l.map f, P e := by
  intro e he
  obtain ⟨x, hx, rfl⟩ := List.mem_map.mp he
  exact h x hx

theorem headD_pred (P : Exp → Prop) (l : List Exp) (d : Exp)
    (hl : ∀ e ∈ l, P e) (hd : P d) : P (l.headD d) := by
  cases l with
  | nil => exact hd
  | cons a t => exact hl a (List.mem_cons_self a t)

theorem getD_pred (P : Exp → Prop) (l : List Exp) (d : Exp)
    (hl : ∀ e ∈ l, P e) (hd : P d) : ∀ i : Nat, P (l.getD i d) := by
  intro i
  induction l generalizing i with
  | nil => simpa [List.getD] using hd
  | cons a t ih =>
    cases i with
    | zero => exact hl a (List.mem_cons_self a t)
    | succ j => exact ih (fun e he => hl e (List.mem_cons_of_mem a he)) j

theorem onlyNet_sumE (t : NetTag) (l : List Exp)
    (h : ∀ e ∈ l, Exp.onlyNet t e = true) : Exp.onlyNet t (sumE l) = true := by
  induction l with
  | nil => rfl
  | cons a ta ih =>
    simp only [sumE, List.foldr_cons, Exp.onlyNet, Bool.and_eq_true]
    exact ⟨h a (List.mem_cons_self a ta),
      ih fun e he => h e (List.mem_cons_of_mem a he)⟩

theorem onlyNet_dotE (t : NetTag) (a b : List Exp)
    (ha : ∀ e ∈ a, Exp.onlyNet t e = true) (hb : ∀ e ∈ b, Exp.onlyNet t e = true) :
    Exp.onlyNet t (dotE a b) = true := by
  refine onlyNet_sumE t _ (zipWith_pred _ Exp.mul a b ?_)
  intro x hx y hy
  simp only [Exp.onlyNet, Bool.and_eq_true]
  exact ⟨ha x hx, hb y hy⟩

theorem onlyNet_linE (t : NetTag) (w : List (List Exp)) (b x : List Exp)
    (hw : ∀ row ∈ w, ∀ e ∈ row, Exp.onlyNet t e = true)
    (hb : ∀ e ∈ b, Exp.onlyNet t e = true)
    (hx : ∀ e ∈ x, Exp.onlyNet t e = true) :
    ∀ e ∈ linE w b x, Exp.onlyNet t e = true := by
  refine zipWith_pred _ _ w b ?_
  intro row hrow bi hbi
  simp only [Exp.onlyNet, Bool.and_eq_true]
  exact ⟨onlyNet_dotE t row x (hw row hrow) hx, hb bi hbi⟩

theorem onlyNet_reluE (t : NetTag) (x : List Exp)
    (hx : ∀ e ∈ x, Exp.onlyNet t e = true) :
    ∀ e ∈ reluE x, Exp.onlyNet t e = true := by
  refine map_pred _ _ x ?_
  intro e he
  simp only [Exp.onlyNet, Bool.and_eq_true]
  exact ⟨hx e he, by trivial⟩

theorem onlyNet_softmaxE (t : NetTag) (z : List Exp)
    (hz : ∀ e ∈ z, Exp.onlyNet t e = true) :
    ∀ e ∈ softmaxE z, Exp.onlyNet t e = true := by
  refine map_pred _ _ z ?_
  intro zi hzi
  simp only [Exp.onlyNet, Bool.and_eq_true]
  refine ⟨hz zi hzi, onlyNet_sumE t _ (map_pred _ _ z ?_)⟩
  intro x hx
  exact hz x hx

theorem onlyNet_wMat (t : NetTag) (layer rows cols : Nat) :
    ∀ row ∈ wMat t layer rows cols, ∀ e ∈ row, Exp.onlyNet t e = true := by
  intro row hrow e he
  obtain ⟨i, _, rfl⟩ := List.mem_map.mp hrow
  obtain ⟨j, _, rfl⟩ := List.mem_map.mp he
  simp [Exp.onlyNet]

theorem onlyNet_bVec (t : NetTag) (layer rows : Nat) :
    ∀ e ∈ bVec t layer rows, Exp.onlyNet t e = true := by
  intro e he
  obtain ⟨i, _, rfl⟩ := List.mem_map.mp he
  simp [Exp.onlyNet]

theorem onlyNet_konstMap (t : NetTag) (l : List ℝ) :
    ∀ e ∈ l.map Exp.konst, Exp.onlyNet t e = true := by
  refine map_pred _ _ l ?_
  intro x _
  rfl

theorem onlyNet_actorForwardE (n h : Nat) (state : List ℝ) :
    ∀ e ∈ actorForwardE n h state, Exp.onlyNet NetTag.actor e = true := by
  unfold actorForwardE
  refine onlyNet_softmaxE _ _ (onlyNet_linE _ _ _ _ (onlyNet_wMat _ _ _ _)
    (onlyNet_bVec _ _ _) (onlyNet_reluE _ _ (onlyNet_linE _ _ _ _
      (onlyNet_wMat _ _ _ _) (onlyNet_bVec _ _ _) (onlyNet_reluE _ _
        (onlyNet_linE _ _ _ _ (onlyNet_wMat _ _ _ _) (onlyNet_bVec _ _ _)
          (onlyNet_konstMap _ _))))))

theorem onlyNet_criticValueE (n h : Nat) (state : List ℝ) :
    Exp.onlyNet NetTag.critic (criticValueE n h state) = true := by
  unfold criticValueE
  refine headD_pred (fun e => Exp.onlyNet NetTag.critic e = true) _ _ ?_ rfl
  exact onlyNet_linE _ _ _ _ (onlyNet_wMat _ _ _ _) (onlyNet_bVec _ _ _)
    (onlyNet_reluE _ _ (onlyNet_linE _ _ _ _ (onlyNet_wMat _ _ _ _)
      (onlyNet_bVec _ _ _) (onlyNet_reluE _ _ (onlyNet_linE _ _ _ _
        (onlyNet_wMat _ _ _ _) (onlyNet_bVec _ _ _) (onlyNet_konstMap _ _)))))

end SymbolicNetworks

section Update

/-- Critic value estimates for the trajectory states, as numbers at the
current parameters: self.critic(states).squeeze() read off the graph. -/
noncomputable def criticValues (n h : Nat) (θ : PRef → ℝ) (states : List (List ℝ)) : List ℝ :=
  states.map fun s => (criticValueE n h s).eval θ

/-- Actor loss graph of PPOAgent.update.  The advantages come out of
compute_advantage through torch.tensor, which copies the values and detaches
them from the graph, so they appear as constants evaluated at the parameters
θ current on entry to update; new_probs is the actor forward graph gathered
at the taken action; old_probs are rollout-time constants. -/
noncomputable def actorLossE (n h : Nat) (gamma eps : ℝ) (θ : PRef → ℝ)
    (states : List (List ℝ)) (actions : List Nat) (rewards oldProbs : List ℝ) : Exp :=
  let advantages := (compute_advantage gamma rewards (criticValues n h θ states)).1
  let newProbs := List.zipWith (fun s a => (actorForwardE n h s).getD a (Exp.konst 0))
    states actions
  let ratio := List.zipWith (fun np op => Exp.ediv np (Exp.konst op)) newProbs oldProbs
  let surrogate1 := List.zipWith (fun r a => Exp.mul r (Exp.konst a)) ratio advantages
  let surrogate2 := List.zipWith
    (fun r a => Exp.mul (clampE r (1 - eps) (1 + eps)) (Exp.konst a)) ratio advantages
  Exp.neg (meanE (List.zipWith Exp.emin surrogate1 surrogate2))

/-- Critic loss graph of PPOAgent.update: mean of (returns - values)
squared, where returns are detached constants and values is the critic
forward graph. -/
noncomputable def criticLossE (n h : Nat) (gamma : ℝ) (θ : PRef → ℝ)
    (states : List (List ℝ)) (rewards : List ℝ) : Exp :=
  let returns := (compute_advantage gamma rewards (criticValues n h θ states)).2
  let diffs := List.zipWith (fun r s => Exp.sub (Exp.konst r) (criticValueE n h s))
    returns states
  meanE (diffs.map fun d => Exp.mul d d)

/-- State of one torch.optim.Adam optimizer: step count and the two moment
buffers, stored per parameter reference. -/
structure OptState where
  t : Nat
  m : PRef → ℝ
  v : PRef → ℝ

/-- Mutable torch state owned by PPOAgent: parameter values, gradient
buffers, and one optimizer per network. -/
structure TorchState where
  theta : PRef → ℝ
  grad : PRef → ℝ
  actorOpt : OptState
  criticOpt : OptState

/-- optimizer.zero_grad(): clears the gradient buffers of the parameters
registered with the optimizer, which are exactly those of its own network. -/
def zeroGrad (t : NetTag) (s : TorchState) : TorchState :=
  { s with grad := fun p => if p.net = t then 0 else s.grad p }

/-- loss.backward(): adds the derivative of the loss to the gradient buffer
of every leaf parameter.  The derivative is taken at the parameter values θ
saved in the graph when the forward passes ran, exactly as torch reuses the
activations stored at forward time. -/
noncomputable def backwardAt (θ : PRef → ℝ) (L : Exp) (s : TorchState) : TorchState :=
  { s with grad := fun p => s.grad p + L.dEval θ p }

/-- One Adam update of a single scalar parameter, after the step count has
been incremented to t: returns the new parameter value and the two new
moments. -/
noncomputable def adamScalar (lr beta1 beta2 aeps : ℝ) (t : Nat) (x m v g : ℝ) : ℝ × ℝ × ℝ :=
  let m1 := beta1 * m + (1 - beta1) * g
  let v1 := beta2 * v + (1 - beta2) * g ^ 2
  let mhat := m1 / (1 - beta1 ^ t)
  let vhat := v1 / (1 - beta2 ^ t)
  (x - lr * mhat / (Real.sqrt vhat + aeps), m1, v1)

/-- optimizer.step() for the optimizer owning network t: increments its step
count and applies one Adam update to every registered parameter from its
gradient buffer; parameters of the other network and its optimizer are
untouched. -/
noncomputable def optStep (t : NetTag) (lr beta1 beta2 aeps : ℝ) (s : TorchState) : TorchState :=
  let o := if t = NetTag.actor then s.actorOpt else s.criticOpt
  let upd := fun p =>
    adamScalar lr beta1 beta2 aeps (o.t + 1) (s.theta p) (o.m p) (o.v p) (s.grad p)
  let o1 : OptState :=
    { t := o.t + 1,
      m := fun p => if p.net = t then (upd p).2.1 else o.m p,
      v := fun p => if p.net = t then (upd p).2.2 else o.v p }
  { theta := fun p => if p.net = t then (upd p).1 else s.theta p,
    grad := s.grad,
    actorOpt := if t = NetTag.actor then o1 else s.actorOpt,
    criticOpt := if t = NetTag.actor then s.criticOpt else o1 }

/-- PPOAgent.update: build both loss graphs from the trajectory at the entry
parameters, then run the source's optimizer sequence: actor zero_grad, actor
backward, actor step, critic zero_grad, critic backward, critic step. -/
noncomputable def PPOAgent.update (n h : Nat) (gamma eps lr beta1 beta2 aeps : ℝ)
    (states : List (List ℝ)) (actions : List Nat) (rewards oldProbs : List ℝ)
    (s : TorchState) : TorchState :=
  let θ0 := s.theta
  let lossA := actorLossE n h gamma eps θ0 states actions rewards oldProbs
  let lossC := criticLossE n h gamma θ0 states rewards
  optStep NetTag.critic lr beta1 beta2 aeps
    (backwardAt θ0 lossC
      (zeroGrad NetTag.critic
        (optStep NetTag.actor lr beta1 beta2 aeps
          (backwardAt θ0 lossA
            (zeroGrad NetTag.actor s)))))

theorem onlyNet_sub (t : NetTag) {a b : Exp} (ha : Exp.onlyNet t a = true)
    (hb : Exp.onlyNet t b = true) : Exp.onlyNet t (Exp.sub a b) = true := by
  simp [Exp.onlyNet, ha, hb]

theorem onlyNet_actorLossE (n h : Nat) (gamma eps : ℝ) (θ : PRef → ℝ)
    (states : List (List ℝ)) (actions : List Nat) (rewards oldProbs : List ℝ) :
    Exp.onlyNet NetTag.actor (actorLossE n h gamma eps θ states actions rewards oldProbs)
      = true := by
  have h1 : ∀ e ∈ List.zipWith (fun s a => (actorForwardE n h s).getD a (Exp.konst 0))
      states actions, Exp.onlyNet NetTag.actor e = true := by
    apply zipWith_pred
    intro s _ a _
    exact getD_pred _ _ (Exp.konst 0) (onlyNet_actorForwardE n h s) rfl a
  have h2 : ∀ e ∈ List.zipWith (fun np op => Exp.ediv np (Exp.konst op))
      (List.zipWith (fun s a => (actorForwardE n h s).getD a (Exp.konst 0)) states actions)
      oldProbs, Exp.onlyNet NetTag.actor e = true := by
    apply zipWith_pred
    intro np hnp op _
    simp only [Exp.onlyNet, Bool.and_eq_true]
    exact ⟨h1 np hnp, by trivial⟩
  have h3 : ∀ e ∈ List.zipWith (fun r a => Exp.mul r (Exp.konst a))
      (List.zipWith (fun np op => Exp.ediv np (Exp.konst op))
        (List.zipWith (fun s a => (actorForwardE n h s).getD a (Exp.konst 0)) states actions)
        oldProbs)
      ((compute_advantage gamma rewards (criticValues n h θ states)).1),
      Exp.onlyNet NetTag.actor e = true := by
    apply zipWith_pred
    intro r hr2 a _
    simp only [Exp.onlyNet, Bool.and_eq_true]
    exact ⟨h2 r hr2, by trivial⟩
  have h4 : ∀ e ∈ List.zipWith
      (fun r a => Exp.mul (clampE r (1 - eps) (1 + eps)) (Exp.konst a))
      (List.zipWith (fun np op => Exp.ediv np (Exp.konst op))
        (List.zipWith (fun s a => (actorForwardE n h s).getD a (Exp.konst 0)) states actions)
        oldProbs)
      ((compute_advantage gamma rewards (criticValues n h θ states)).1),
      Exp.onlyNet NetTag.actor e = true := by
    apply zipWith_pred
    intro r hr2 a _
    simp only [clampE, Exp.onlyNet, Bool.and_eq_true]
    exact ⟨⟨⟨h2 r hr2, by trivial⟩, by trivial⟩, by trivial⟩
  simp only [actorLossE, meanE, Exp.onlyNet, Bool.and_eq_true]
  refine ⟨onlyNet_sumE _ _ ?_, by trivial⟩
  apply zipWith_pred
  intro x hx y hy
  simp only [Exp.onlyNet, Bool.and_eq_true]
  exact ⟨h3 x hx, h4 y hy⟩

theorem onlyNet_criticLossE (n h : Nat) (gamma : ℝ) (θ : PRef → ℝ)
    (states : List (List ℝ)) (rewards : List ℝ) :
    Exp.onlyNet NetTag.critic (criticLossE n h gamma θ states rewards) = true := by
  have hdiffs : ∀ e ∈ List.zipWith (fun r s => Exp.sub (Exp.konst r) (criticValueE n h s))
      ((compute_advantage gamma rewards (criticValues n h θ states)).2) states,
      Exp.onlyNet NetTag.critic e = true := by
    apply zipWith_pred
    intro r _ s _
    exact onlyNet_sub NetTag.critic rfl (onlyNet_criticValueE n h s)
  simp only [criticLossE, meanE, Exp.onlyNet, Bool.and_eq_true]
  refine ⟨onlyNet_sumE _ _ ?_, by trivial⟩
  apply map_pred
  intro d hd
  simp only [Exp.onlyNet, Bool.and_eq_true]
  exact ⟨hdiffs d hd, hdiffs d hd⟩

theorem eval_sumE (θ : PRef → ℝ) : ∀ l : List Exp,
    (sumE l).eval θ = (l.map (Exp.eval θ)).sum := by
  intro l
  induction l with
  | nil => rfl
  | cons a t ih =>
    simp only [sumE, List.foldr_cons, Exp.eval, List.map_cons, List.sum_cons]
    exact congrArg (fun x => a.eval θ + x) ih

theorem eval_getD (θ : PRef → ℝ) : ∀ (l : List Exp) (i : Nat) (d : Exp),
    (l.getD i d).eval θ = (l.map (Exp.eval θ)).getD i (d.eval θ) := by
  intro l
  induction l with
  | nil => intro i d; rfl
  | cons a t ih =>
    intro i d
    cases i with
    | zero => rfl
    | succ j => exact ih j d

theorem map_eval_newProbsList (n hdim : Nat) (θ : PRef → ℝ) :
    ∀ (states : List (List ℝ)) (actions : List Nat),
      (List.zipWith (fun s a => (actorForwardE n hdim s).getD a (Exp.konst 0))
          states actions).map (Exp.eval θ)
      = List.zipWith (fun s a => (actorProbs n hdim θ s).getD a 0) states actions := by
  intro states
  induction states with
  | nil => intro actions; rfl
  | cons s t ih =>
    intro actions
    cases actions with
    | nil => rfl
    | cons a ta =>
      simp only [List.zipWith_cons_cons, List.map_cons, ih ta, List.cons.injEq,
        and_true]
      rw [eval_getD]
      rfl

theorem map_eval_ratioList (θ : PRef → ℝ) :
    ∀ (np : List Exp) (ops : List ℝ),
      (List.zipWith (fun x op => Exp.ediv x (Exp.konst op)) np ops).map (Exp.eval θ)
      = List.zipWith (fun p q => p / q) (np.map (Exp.eval θ)) ops := by
  intro np
  induction np with
  | nil => intro ops; rfl
  | cons x t ih =>
    intro ops
    cases ops with
    | nil => rfl
    | cons o os => simp [Exp.eval, ih os]

theorem map_eval_minsList (eps : ℝ) (θ : PRef → ℝ) :
    ∀ (R : List Exp) (A : List ℝ),
      (List.zipWith Exp.emin
          (List.zipWith (fun r adv => Exp.mul r (Exp.konst adv)) R A)
          (List.zipWith
            (fun r adv => Exp.mul (clampE r (1 - eps) (1 + eps)) (Exp.konst adv))
            R A)).map (Exp.eval θ)
      = List.zipWith min
          (List.zipWith (fun x y => x * y) (R.map (Exp.eval θ)) A)
          (List.zipWith (fun x y => clampVal x (1 - eps) (1 + eps) * y)
            (R.map (Exp.eval θ)) A) := by
  intro R
  induction R with
  | nil => intro A; rfl
  | cons r t ih =>
    intro A
    cases A with
    | nil => rfl
    | cons adv ta =>
      have ih2 := ih ta
      simp only [clampE, clampVal] at ih2
      simp [Exp.eval, clampE, clampVal, ih2]

theorem actorLossE_eval (n hdim : Nat) (gamma eps : ℝ) (θ : PRef → ℝ)
    (states : List (List ℝ)) (actions : List Nat) (rewards oldProbs : List ℝ) :
    (actorLossE n hdim gamma eps θ states actions rewards oldProbs).eval θ
      = ppoActorLoss eps
          (List.zipWith (fun s a => (actorProbs n hdim θ s).getD a 0) states actions)
          oldProbs
          ((compute_advantage gamma rewards (criticValues n hdim θ states)).1) := by
  simp only [actorLossE, ppoActorLoss, meanE, Exp.eval, eval_sumE]
  rw [map_eval_minsList, map_eval_ratioList, map_eval_newProbsList]
  simp [List.length_zipWith, List.length_map]

/-- Claim C6: one call to update applies exactly one Adam step to every actor
parameter, driven by the gradient of the actor loss alone, and exactly one
independent Adam step to every critic parameter, driven by the gradient of the
critic loss alone, both gradients taken at the entry parameters; each loss
graph mentions only parameters of its own network (the advantages and returns
being detached constants), so the cross-network gradient of either loss at any
parameter of the other network is zero: the critic loss never changes actor
parameters and the actor loss never changes critic parameters. -/
theorem update_gradient_isolation (n h : Nat) (gamma eps lr beta1 beta2 aeps : ℝ)
    (states : List (List ℝ)) (actions : List Nat) (rewards oldProbs : List ℝ)
    (s : TorchState) (p : PRef) :
    (PPOAgent.update n h gamma eps lr beta1 beta2 aeps
        states actions rewards oldProbs s).theta p
      = (if p.net = NetTag.actor then
          (adamScalar lr beta1 beta2 aeps (s.actorOpt.t + 1) (s.theta p)
            (s.actorOpt.m p) (s.actorOpt.v p)
            ((actorLossE n h gamma eps s.theta states actions rewards oldProbs).dEval
              s.theta p)).1
        else
          (adamScalar lr beta1 beta2 aeps (s.criticOpt.t + 1) (s.theta p)
            (s.criticOpt.m p) (s.criticOpt.v p)
            ((criticLossE n h gamma s.theta states rewards).dEval s.theta p)).1)
    ∧ Exp.onlyNet NetTag.actor
        (actorLossE n h gamma eps s.theta states actions rewards oldProbs) = true
    ∧ Exp.onlyNet NetTag.critic (criticLossE n h gamma s.theta states rewards) = true
    ∧ (if p.net = NetTag.actor
        then (criticLossE n h gamma s.theta states rewards).dEval s.theta p
        else (actorLossE n h gamma eps s.theta states actions rewards oldProbs).dEval
          s.theta p)
      = 0 := by
  refine ⟨?_, onlyNet_actorLossE n h gamma eps s.theta states actions rewards oldProbs,
    onlyNet_criticLossE n h gamma s.theta states rewards, ?_⟩
  · rcases p with ⟨pn, pl, pr, pc⟩
    cases pn with
    | actor => simp [PPOAgent.update, optStep, zeroGrad, backwardAt]
    | critic => simp [PPOAgent.update, optStep, zeroGrad, backwardAt]
  · rcases p with ⟨pn, pl, pr, pc⟩
    cases pn with
    | actor =>
      rw [if_pos (show (⟨NetTag.actor, pl, pr, pc⟩ : PRef).net = NetTag.actor from rfl)]
      exact dEval_eq_zero_of_onlyNet NetTag.critic _ _ (by simp) _
        (onlyNet_criticLossE n h gamma s.theta states rewards)
    | critic =>
      rw [if_neg (show ¬ (⟨NetTag.critic, pl, pr, pc⟩ : PRef).net = NetTag.actor by simp)]
      exact dEval_eq_zero_of_onlyNet NetTag.actor _ _ (by simp) _
        (onlyNet_actorLossE n h gamma eps s.theta states actions rewards oldProbs)

/-- Claim C4: the actor loss equals the negative mean over the trajectory of
min(ratio * advantage, clamp(ratio, 1 - eps, 1 + eps) * advantage) with
ratio = new_prob / old_prob, and for a ratio outside the clip interval with
positive advantage the clipped surrogate never exceeds
(1 + eps) * advantage.  The companion theorem actorLossE_eval shows the same
formula is the value of the symbolic actor loss built inside update. -/
theorem clipped_surrogate_spec (eps a r : ℚ) (newProbs oldProbs advantages : List ℚ)
    (n hdim : Nat) (gammaR epsR : ℝ) (θ : PRef → ℝ) (statesR : List (List ℝ))
    (actionsR : List Nat) (rewardsR oldProbsR : List ℝ)
    (_hr : r < 1 - eps ∨ 1 + eps < r) (ha : 0 < a) :
    ppoActorLoss eps newProbs oldProbs advantages
      = -(((List.zipWith min
            (List.zipWith (fun x y => x * y)
              (List.zipWith (fun p q => p / q) newProbs oldProbs) advantages)
            (List.zipWith (fun x y => clampVal x (1 - eps) (1 + eps) * y)
              (List.zipWith (fun p q => p / q) newProbs oldProbs) advantages)).sum)
          / (((List.zipWith min
            (List.zipWith (fun x y => x * y)
              (List.zipWith (fun p q => p / q) newProbs oldProbs) advantages)
            (List.zipWith (fun x y => clampVal x (1 - eps) (1 + eps) * y)
              (List.zipWith (fun p q => p / q) newProbs oldProbs) advantages)).length) : ℚ))
    ∧ (actorLossE n hdim gammaR epsR θ statesR actionsR rewardsR oldProbsR).eval θ
      = ppoActorLoss epsR
          (List.zipWith (fun s act => (actorProbs n hdim θ s).getD act 0)
            statesR actionsR)
          oldProbsR
          ((compute_advantage gammaR rewardsR (criticValues n hdim θ statesR)).1)
    ∧ clampVal r (1 - eps) (1 + eps) * a ≤ (1 + eps) * a := by
  refine ⟨rfl, actorLossE_eval n hdim gammaR epsR θ statesR actionsR rewardsR oldProbsR, ?_⟩
  exact mul_le_mul_of_nonneg_right (min_le_right _ _) ha.le

theorem clipped_surrogate_spec_witness :
    ((1 : ℚ) + 1/5 < 2) ∧ (0 : ℚ) < 1
    ∧ ppoActorLoss (1/5 : ℚ) [] [] [] = 0
    ∧ clampVal (2 : ℚ) (1 - 1/5) (1 + 1/5) * 1 ≤ (1 + 1/5) * 1 := by
  refine ⟨by norm_num, by norm_num, by simp [ppoActorLoss], ?_⟩
  exact (clipped_surrogate_spec (1/5) 1 2 [] [] [] 1 1 0 0 (fun _ => 0) [] [] [] []
    (Or.inr (by norm_num)) (by norm_num)).2.2

end Update

section TrainingLoop

/- The driver seeds numpy, torch and random once at process start; with a
fixed seed every random draw the loop consumes (the Dirichlet reset draw, the
multinomial channel draw, the uniform perturbation magnitude) is a
deterministic stream.  The embedding therefore passes the draws explicitly:
equal seeds mean equal draw streams. -/

/-- The randomness one timestep consumes: the uniform sample behind
torch.multinomial and the np.random.uniform(-5, 5) perturbation magnitude. -/
structure StepDraw where
  multinomial : ℝ
  perturb : ℝ

/-- The randomness one episode consumes: the Dirichlet reset draw and the
per-timestep draws. -/
structure EpisodeDraw where
  dirichlet : List ℝ
  steps : List StepDraw

/-- The trajectory lists the driver accumulates during one episode. -/
structure Trajectory where
  states : List (List ℝ)
  actions : List Nat
  rewards : List ℝ
  oldProbs : List ℝ

/-- torch.multinomial(probs, 1) as a function of the seeded generator: the
inverse-CDF draw picking the first index whose remaining probability mass
covers the uniform sample. -/
noncomputable def categoricalDraw : List ℝ → ℝ → Nat
  | [], _ => 0
  | p :: rest, u => if u < p then 0 else categoricalDraw rest (u - p) + 1

/-- One timestep of the rollout: actor forward at the current parameters,
multinomial channel draw, one-hot perturbation of the drawn channel,
environment step, and append (pre-step state, action, reward, chosen
probability) to the trajectory while accumulating total reward. -/
noncomputable def rolloutStep (n h : Nat) (θ : PRef → ℝ)
    (acc : MarketingEnv ℝ × Trajectory × ℝ) (d : StepDraw) :
    MarketingEnv ℝ × Trajectory × ℝ :=
  let env := acc.1
  let probs := actorProbs n h θ env.state
  let action := categoricalDraw probs d.multinomial
  let changes := (List.range env.num_channels).map
    fun i => if i = action then d.perturb else (0 : ℝ)
  let res := env.step changes
  (res.1,
   { states := acc.2.1.states ++ [env.state],
     actions := acc.2.1.actions ++ [action],
     rewards := acc.2.1.rewards ++ [res.2.1],
     oldProbs := acc.2.1.oldProbs ++ [probs.getD action 0] },
   acc.2.2 + res.2.1)

/-- One episode of the driver: env.reset() with the fresh Dirichlet draw,
ten (here: length of ed.steps) rollout timesteps under the fixed current
policy, then one PPOAgent.update on the collected trajectory.  Returns the
new environment and torch state plus the trajectory and its total reward. -/
noncomputable def runEpisode (n h : Nat) (gamma eps lr beta1 beta2 aeps : ℝ)
    (acc : MarketingEnv ℝ × TorchState) (ed : EpisodeDraw) :
    (MarketingEnv ℝ × TorchState) × Trajectory × ℝ :=
  let env0 : MarketingEnv ℝ := { acc.1 with state := resetState acc.1.budget ed.dirichlet }
  let roll := ed.steps.foldl (rolloutStep n h acc.2.theta) (env0, ⟨[], [], [], []⟩, 0)
  let s1 := PPOAgent.update n h gamma eps lr beta1 beta2 aeps
    roll.2.1.states roll.2.1.actions roll.2.1.rewards roll.2.1.oldProbs acc.2
  ((roll.1, s1), roll.2.1, roll.2.2)

/-- The full training loop: construct the environment, then run one episode
per entry of the episode draw stream, collecting each trajectory and episode
total; returns the final environment (whose state is the reported optimized
allocation), the final torch state and the per-episode records. -/
noncomputable def trainLoop (n h : Nat) (gamma eps lr beta1 beta2 aeps : ℝ)
    (betas : List ℝ) (budget : ℝ) (s0 : TorchState) (d0 : List ℝ)
    (eds : List EpisodeDraw) :
    (MarketingEnv ℝ × TorchState) × List (Trajectory × ℝ) :=
  eds.foldl
    (fun acc ed =>
      let r := runEpisode n h gamma eps lr beta1 beta2 aeps acc.1 ed
      (r.1, acc.2 ++ [r.2]))
    ((initEnv betas budget d0, s0), [])

/-- All-zero torch state, used for concrete instantiation. -/
noncomputable def zeroTorchState : TorchState :=
  ⟨fun _ => 0, fun _ => 0, ⟨0, fun _ => 0, fun _ => 0⟩, ⟨0, fun _ => 0, fun _ => 0⟩⟩

/-- Claim C9: the training loop is a deterministic function of its
configuration, its initial parameters and the seeded random draw streams.
Identical seeds give identical Dirichlet, multinomial and uniform draw
streams, and then the two runs produce identical trajectories, rewards,
torch states and final allocations. -/
theorem seed_determinism (n h : Nat) (gamma eps lr beta1 beta2 aeps : ℝ)
    (betas : List ℝ) (budget : ℝ) (sa sb : TorchState) (da db : List ℝ)
    (edsa edsb : List EpisodeDraw)
    (hs : sa = sb) (hd : da = db) (he : edsa = edsb) :
    trainLoop n h gamma eps lr beta1 beta2 aeps betas budget sa da edsa
      = trainLoop n h gamma eps lr beta1 beta2 aeps betas budget sb db edsb := by
  subst hs
  subst hd
  subst he
  rfl

theorem seed_determinism_witness :
    (zeroTorchState = zeroTorchState ∧ ([] : List ℝ) = []
      ∧ ([] : List EpisodeDraw) = [])
    ∧ trainLoop 1 1 0 0 0 0 0 0 [1] 1 zeroTorchState [] []
      = trainLoop 1 1 0 0 0 0 0 0 [1] 1 zeroTorchState [] [] :=
  ⟨⟨rfl, rfl, rfl⟩,
    seed_determinism 1 1 0 0 0 0 0 0 [1] 1 zeroTorchState zeroTorchState [] [] [] []
      rfl rfl rfl⟩

end TrainingLoop

end BudgetOpt
